import Mathlib

/-!
Verification of the `stateRegexp.py` chromatin-state motif pipeline (class
`StateRegexp`): a shallow embedding of the sequence encoder (`_readfile`), the
overlapped motif matcher (`re.finditer(pattern, s, overlapped=True)` with the
two built-in patterns `BIVALENT` and `REPRPC`), the coordinate reconstructor
and output formatter (the body of `regex`), and the `__main__` invocation.

The input file is modelled as a list of parsed lines (the tab-splitting of a
well-formed 5-column record); the encoder's byte array is a `List Char`;
exceptions (`KeyError` on an unknown state-label, `IndexError` on an
out-of-bounds array write) are modelled with `Except`.
-/

/-- Fixed capacity of the encoder's character array: the `size=13627678`
default parameter of `StateRegexp._readfile`. -/
def SIZE : Nat := 13627678

/-- Confidence threshold `0.5` from `_readfile` (`float(line[4]) > 0.5`),
written as a rational in reduced constructor form so that it evaluates inside
the kernel. -/
def half : ℚ := ⟨1, 2, by decide, by decide⟩

/-- One parsed input line: tab-separated columns
`chromosome, start, end, state-label, confidence` (`end` is spelled `stop`
because `end` is a reserved word). The confidence is the parsed numeric value
of the fifth column. -/
structure Line where
  chrom : String
  start : Int
  stop : Int
  label : String
  conf : ℚ
deriving DecidableEq

/-- Default line value, used only to phrase theorems with `List.getD`. -/
def dfltLine : Line := ⟨"", 0, 0, "", 0⟩

/-- The 18-entry state-label → symbol dictionary `self.alphabet`, in the
source's insertion order. -/
def alphabet : List (String × Char) :=
  [("E16", 'A'), ("E18", 'B'), ("E10", 'C'), ("E8", 'D'), ("E14", 'E'),
   ("E13", 'F'), ("E17", 'G'), ("E12", 'H'), ("E15", 'I'), ("E11", 'J'),
   ("E1", 'K'), ("E2", 'L'), ("E9", 'M'), ("E5", 'N'), ("E3", 'O'),
   ("E4", 'P'), ("E6", 'Q'), ("E7", 'R')]

/-- Failure modes of `_readfile`: `self.alphabet[line[3]]` raises `KeyError`
(a `LookupError`) on an unknown state-label, and `s[i] = ...` raises
`IndexError` when `i` is not below the array length. -/
inductive Err where
  | keyError (label : String)
  | indexError
deriving DecidableEq

/-- The loop body of `_readfile`: `s` is the character array (always of length
`size`), `i` the current line index. A line with confidence strictly above 0.5
stores the alphabet symbol of its state-label at position `i` (the lookup is
attempted first, as in Python, so an unknown label raises `KeyError` before any
bounds check); any other line leaves position `i` untouched. -/
def readfileAux (size : Nat) (s : List Char) (i : Nat) : List Line → Except Err (List Char)
  | [] => .ok s
  | l :: rest =>
    if l.conf > half then
      match List.lookup l.label alphabet with
      | some c =>
        if i < size then readfileAux size (s.set i c) (i + 1) rest
        else .error .indexError
      | none => .error (.keyError l.label)
    else readfileAux size s (i + 1) rest

/-- `StateRegexp._readfile`: a buffer of `size` placeholder dots, filled in by
one pass over the input lines. -/
def readfile (lines : List Line) (size : Nat) : Except Err (List Char) :=
  readfileAux size (List.replicate size '.') 0 lines

/-- The `BIVALENT` pattern string (class attribute of `StateRegexp`). -/
def BIVALENT : String := "[KLNOPQR]([KLNOPQR]G+[KLNOPQR])[KLNOPQR]"

/-- The `REPRPC` pattern string (class attribute of `StateRegexp`). -/
def REPRPC : String := "[MNOPQR][KLNOPQR]([KLNOPQR][LK]+[KLNOPQR])[KLNOPQR][MNOPQR]"

/-- One regex match: the overall span `[mstart, mend)` and the span
`[cstart, cend)` of the single capture group, as offsets into the encoded
string (`i.regs[0]` and `i.regs[1]`). -/
structure RMatch where
  mstart : Nat
  mend : Nat
  cstart : Nat
  cend : Nat
deriving DecidableEq

/-- Character of the encoded string at offset `p`. Out-of-range offsets give
the placeholder '.', which belongs to no character class of either pattern, so
this agrees with the engine failing at the end of the string. -/
def charAt (s : List Char) (p : Nat) : Char := s.getD p '.'

/-- Character class `[KLNOPQR]`: the flank / capture-boundary class shared by
both patterns. -/
def isFlank (c : Char) : Bool :=
  c = 'K' || c = 'L' || c = 'N' || c = 'O' || c = 'P' || c = 'Q' || c = 'R'

/-- Character class `[MNOPQR]`: the outermost flanks of `REPRPC`. -/
def isOuter (c : Char) : Bool :=
  c = 'M' || c = 'N' || c = 'O' || c = 'P' || c = 'Q' || c = 'R'

/-- Character class `[LK]`: the repeated core of `REPRPC`. -/
def isLK (c : Char) : Bool := c = 'L' || c = 'K'

/-- The literal 'G' (bivalent TSS state), the repeated core of `BIVALENT`. -/
def isG (c : Char) : Bool := c = 'G'

/-- Length of the maximal prefix whose characters satisfy `cl`: the number of
characters a greedy repetition of the class consumes. -/
def runLen (cl : Char → Bool) : List Char → Nat
  | [] => 0
  | c :: r => if cl c then runLen cl r + 1 else 0

/-- Anchored match of `BIVALENT = [KLNOPQR]([KLNOPQR]G+[KLNOPQR])[KLNOPQR]` at
offset `p`. The greedy `G+` consumes the maximal run of 'G'; backtracking to a
shorter run can never help because the character after a shorter run is again
'G', which is not in `[KLNOPQR]`, so this deterministic matcher agrees with the
backtracking engine. -/
def bivMatchAt (s : List Char) (p : Nat) : Option RMatch :=
  let k := runLen isG (s.drop (p + 2))
  if isFlank (charAt s p) && isFlank (charAt s (p + 1)) && decide (0 < k)
      && isFlank (charAt s (p + 2 + k)) && isFlank (charAt s (p + 3 + k)) then
    some ⟨p, p + 4 + k, p + 1, p + 3 + k⟩
  else none

/-- Greedy backtracking for the `[LK]+` of `REPRPC`: try a core of `j`
characters, then the continuation `[KLNOPQR])[KLNOPQR][MNOPQR]`; on failure
retry with one core character fewer, never reaching zero (the `+` needs at
least one). -/
def reprTry (s : List Char) (p : Nat) : Nat → Option RMatch
  | 0 => none
  | j + 1 =>
    if isFlank (charAt s (p + 3 + (j + 1))) && isFlank (charAt s (p + 4 + (j + 1)))
        && isOuter (charAt s (p + 5 + (j + 1))) then
      some ⟨p, p + 6 + (j + 1), p + 2, p + 4 + (j + 1)⟩
    else reprTry s p j

/-- Anchored match of
`REPRPC = [MNOPQR][KLNOPQR]([KLNOPQR][LK]+[KLNOPQR])[KLNOPQR][MNOPQR]` at
offset `p`, starting the greedy `[LK]+` from its maximal run. -/
def reprMatchAt (s : List Char) (p : Nat) : Option RMatch :=
  if isOuter (charAt s p) && isFlank (charAt s (p + 1)) && isFlank (charAt s (p + 2)) then
    reprTry s p (runLen isLK (s.drop (p + 3)))
  else none

/-- The overlapped scan of `re.finditer(pattern, s, overlapped=True)`: attempt
an anchored match at every offset in ascending order, so that after a match is
found the scan resumes one position past the match's start (not past its end).
`fuel` counts the offsets still to try. -/
def scanFrom (mA : List Char → Nat → Option RMatch) (s : List Char) : Nat → Nat → List RMatch
  | 0, _ => []
  | fuel + 1, p =>
    match mA s p with
    | some m => m :: scanFrom mA s fuel (p + 1)
    | none => scanFrom mA s fuel (p + 1)

/-- All (possibly overlapping) matches of a pattern over the encoded string,
in ascending start order. -/
def findAll (mA : List Char → Nat → Option RMatch) (s : List Char) : List RMatch :=
  scanFrom mA s s.length 0

/-- One reconstructed output interval: chromosome, genomic start and end
(`line[0:3]` after the coordinate arithmetic). -/
structure GenomeInterval where
  chrom : String
  start : Int
  stop : Int
deriving DecidableEq

/-- Body of the cursor loop `while n <= start: line = f.readline(); n += 1`:
`n` counts the lines consumed so far, `cur` is the most recently read line, and
the loop runs while `n ≤ a`, i.e. exactly `a + 1 - n` times. Reading past the
end of the file yields `none`. -/
def seekAux (lines : List Line) (a : Nat) : Nat → Nat → Option Line → Nat × Option Line
  | 0, n, cur => (n, cur)
  | fuel + 1, n, cur =>
    if n ≤ a then seekAux lines a fuel (n + 1) (lines[n]?) else (n, cur)

/-- The cursor loop itself, with the exact iteration count as fuel. -/
def seek (lines : List Line) (a : Nat) (n : Nat) (cur : Option Line) : Nat × Option Line :=
  seekAux lines a (a + 1 - n) n cur

/-- The coordinate reconstructor: `regex`'s loop over the capture ranges of the
matches, in order. For each capture `[a, b)` the shared cursor advances to line
`a`; the interval takes that line's chromosome and start as-is, its end is the
line's end plus `binsize * (length - 1)`, and, when `slop` is nonzero
(`if slop:`), the start is lowered by `slop` (floored at 0) and the end raised
by `slop`. A capture that seeks past the end of the file fails (`none`). -/
def recon (lines : List Line) (binsize slop : Int) :
    List (Nat × Nat) → Nat → Option Line → Option (List GenomeInterval)
  | [], _, _ => some []
  | (a, b) :: rest, n, cur =>
    match seek lines a n cur with
    | (_, none) => none
    | (nn, some l) =>
      let stop0 : Int := l.stop + binsize * (((b : Int) - (a : Int)) - 1)
      let iv : GenomeInterval :=
        if slop = 0 then ⟨l.chrom, l.start, stop0⟩
        else ⟨l.chrom, max 0 (l.start - slop), stop0 + slop⟩
      match recon lines binsize slop rest nn (some l) with
      | some ivs => some (iv :: ivs)
      | none => none

/-- Closed form of the interval `recon` emits for capture `p` once the cursor
has reached line `p.1` (used to state `recon`'s behaviour; `recon` itself is
the faithful single-cursor loop). -/
def reconIv (lines : List Line) (binsize slop : Int) (p : Nat × Nat) : GenomeInterval :=
  let l := lines.getD p.1 dfltLine
  let stop0 : Int := l.stop + binsize * (((p.2 : Int) - (p.1 : Int)) - 1)
  if slop = 0 then ⟨l.chrom, l.start, stop0⟩
  else ⟨l.chrom, max 0 (l.start - slop), stop0 + slop⟩

/-- Truthiness of the `tag` parameter (`if tag:`): present and non-empty. -/
def tagTruthy : Option String → Bool
  | none => false
  | some t => !t.isEmpty

/-- The list of tab-separated fields written for one interval: `line[0:3]`
always; tissue and timepoint unless `bed3`; the tag when it is truthy. -/
def outputRow (iv : GenomeInterval) (tissue timepoint : String) (tag : Option String)
    (bed3 : Bool) : List String :=
  let line := [iv.chrom, toString iv.start, toString iv.stop]
  if bed3 then line
  else if tagTruthy tag then line ++ [tissue, timepoint, tag.getD ""]
  else line ++ [tissue, timepoint]

/-- One output line: the fields joined with tabs, plus the trailing newline
the source appends to every write. -/
def renderRow (row : List String) : String := String.intercalate "\t" row ++ "\n"

/-- The whole output stream: exactly one line per interval and nothing else
(no header row). -/
def outputAll (ivs : List GenomeInterval) (tissue timepoint : String) (tag : Option String)
    (bed3 : Bool) : String :=
  String.join (ivs.map fun iv => renderRow (outputRow iv tissue timepoint tag bed3))

/-- The coordinate core of `StateRegexp.regex`: encode the file, enumerate the
overlapped matches of the pattern, and feed the capture range of each match
(`i.regs[1:]`, one group per pattern) to the reconstructor, cursor starting
before the first line. -/
def runPattern (mA : List Char → Nat → Option RMatch) (lines : List Line) (size : Nat)
    (slop binsize : Int) : Option (List GenomeInterval) :=
  match readfile lines size with
  | .error _ => none
  | .ok t => recon lines binsize slop ((findAll mA t).map fun m => (m.cstart, m.cend)) 0 none

/-- The third positional argument of both `StateRegexp().regex(args.file,
PATTERN, 200, ...)` calls in `__main__`; by position it binds the `slop`
parameter of `regex`. -/
def cliSlop : Int := 200

/-- The `binsize` parameter of `regex`, left at its default `200` by the CLI
(the calls pass `slop` positionally and everything else by keyword). -/
def cliBinsize : Int := 200

/-- Confidence 0.9, in reduced constructor form. -/
def conf9 : ℚ := ⟨9, 10, by decide, by decide⟩

/-- Confidence 0.3, in reduced constructor form. -/
def conf3 : ℚ := ⟨3, 10, by decide, by decide⟩

/-- Concrete two-line file: line 0 maps to 'K' at confidence 0.9, line 1 has
confidence exactly 0.5 (not strictly above threshold). -/
def lines2 : List Line :=
  [⟨"chr1", 0, 200, "E1", conf9⟩, ⟨"chr1", 200, 400, "E4", half⟩]

/-- Encoding of `lines2`: only position 0 is written. -/
def t2 : List Char := (List.replicate SIZE '.').set 0 'K'

/-- Concrete seven-line file of consecutive 200-bp bins on chr1 starting at 0,
whose state-labels encode the string `KLGGGLK` (`E1 ↦ K`, `E2 ↦ L`,
`E17 ↦ G`), all at confidence 0.9. -/
def lines7 : List Line :=
  [⟨"chr1", 0, 200, "E1", conf9⟩, ⟨"chr1", 200, 400, "E2", conf9⟩,
   ⟨"chr1", 400, 600, "E17", conf9⟩, ⟨"chr1", 600, 800, "E17", conf9⟩,
   ⟨"chr1", 800, 1000, "E17", conf9⟩, ⟨"chr1", 1000, 1200, "E2", conf9⟩,
   ⟨"chr1", 1200, 1400, "E1", conf9⟩]

/-- Encoding of `lines7`: positions 0–6 spell `KLGGGLK`, the rest stay dots. -/
def enc7 : List Char :=
  (((((((List.replicate SIZE '.').set 0 'K').set 1 'L').set 2 'G').set 3 'G').set 4
      'G').set 5 'L').set 6 'K'

/-- Sanity link between the embedded threshold and the literal `0.5` of the
source. -/
theorem half_eq_one_div_two : half = 1 / 2 := by
  rw [half, Rat.mk'_eq_divInt, Rat.divInt_eq_div]
  norm_num

/-- Unfolding of `readfileAux` on a stored line (confidence above threshold,
known label, in-bounds index). -/
theorem readfileAux_cons_store {size : Nat} {s : List Char} {i : Nat} {l : Line}
    {rest : List Line} {c : Char} (hc : l.conf > half)
    (hl : List.lookup l.label alphabet = some c) (hi : i < size) :
    readfileAux size s i (l :: rest) = readfileAux size (s.set i c) (i + 1) rest := by
  simp [readfileAux, hc, hl, hi]

/-- Unfolding of `readfileAux` on an unknown label at confidence above the
threshold: the `KeyError`. -/
theorem readfileAux_cons_key {size : Nat} {s : List Char} {i : Nat} {l : Line}
    {rest : List Line} (hc : l.conf > half)
    (hl : List.lookup l.label alphabet = none) :
    readfileAux size s i (l :: rest) = .error (.keyError l.label) := by
  simp [readfileAux, hc, hl]

/-- Unfolding of `readfileAux` on an out-of-bounds write: the `IndexError`. -/
theorem readfileAux_cons_idx {size : Nat} {s : List Char} {i : Nat} {l : Line}
    {rest : List Line} {c : Char} (hc : l.conf > half)
    (hl : List.lookup l.label alphabet = some c) (hi : ¬ i < size) :
    readfileAux size s i (l :: rest) = .error .indexError := by
  simp [readfileAux, hc, hl, hi]

/-- Unfolding of `readfileAux` on a skipped line (confidence not above the
threshold): the position is left untouched, whatever the label. -/
theorem readfileAux_cons_skip {size : Nat} {s : List Char} {i : Nat} {l : Line}
    {rest : List Line} (hc : ¬ l.conf > half) :
    readfileAux size s i (l :: rest) = readfileAux size s (i + 1) rest := by
  simp [readfileAux, hc]

/-- A successful value looked up in an association list is one of its values. -/
theorem lookup_mem_snd : ∀ (tbl : List (String × Char)) (lbl : String) (c : Char),
    List.lookup lbl tbl = some c → c ∈ tbl.map Prod.snd := by
  intro tbl
  induction tbl with
  | nil => intro lbl c h; exact Option.noConfusion h
  | cons hd tl ih =>
    intro lbl c h
    rw [List.lookup] at h
    split at h
    · cases h; simp
    · simp only [List.map_cons, List.mem_cons]
      exact Or.inr (ih lbl c h)

/-- No alphabet symbol equals the placeholder dot. -/
theorem alphabet_val_ne_dot {lbl : String} {c : Char}
    (h : List.lookup lbl alphabet = some c) : c ≠ '.' := by
  have hall : ∀ x ∈ alphabet.map Prod.snd, x ≠ '.' := by decide
  exact hall c (lookup_mem_snd alphabet lbl c h)

/-- A successful encoder pass preserves the buffer length. -/
theorem readfileAux_ok_length {size : Nat} {t : List Char} :
    ∀ (ls : List Line) (s : List Char) (i : Nat),
      readfileAux size s i ls = .ok t → t.length = s.length := by
  intro ls
  induction ls with
  | nil => intro s i h; rw [readfileAux] at h; cases h; rfl
  | cons l rest ih =>
    intro s i h
    by_cases hc : l.conf > half
    · cases hl : List.lookup l.label alphabet with
      | none => rw [readfileAux_cons_key hc hl] at h; exact Except.noConfusion h
      | some c =>
        by_cases hi : i < size
        · rw [readfileAux_cons_store hc hl hi] at h
          rw [ih _ _ h, List.length_set]
        · rw [readfileAux_cons_idx hc hl hi] at h; exact Except.noConfusion h
    · rw [readfileAux_cons_skip hc] at h
      exact ih _ _ h

/-- Positions strictly below the running index are never touched again. -/
theorem readfileAux_ok_getElem_lt {size : Nat} {t : List Char} :
    ∀ (ls : List Line) (s : List Char) (i : Nat),
      readfileAux size s i ls = .ok t → ∀ j, j < i → t[j]? = s[j]? := by
  intro ls
  induction ls with
  | nil => intro s i h j hj; cases h; rfl
  | cons l rest ih =>
    intro s i h j hj
    by_cases hc : l.conf > half
    · cases hl : List.lookup l.label alphabet with
      | none => rw [readfileAux_cons_key hc hl] at h; exact Except.noConfusion h
      | some c =>
        by_cases hi : i < size
        · rw [readfileAux_cons_store hc hl hi] at h
          rw [ih _ _ h j (by omega), List.getElem?_set_ne (by omega)]
        · rw [readfileAux_cons_idx hc hl hi] at h; exact Except.noConfusion h
    · rw [readfileAux_cons_skip hc] at h
      exact ih _ _ h j (by omega)

/-- Positions at or beyond the last processed line are never touched. -/
theorem readfileAux_ok_getElem_ge {size : Nat} {t : List Char} :
    ∀ (ls : List Line) (s : List Char) (i : Nat),
      readfileAux size s i ls = .ok t → ∀ j, i + ls.length ≤ j → t[j]? = s[j]? := by
  intro ls
  induction ls with
  | nil => intro s i h j hj; cases h; rfl
  | cons l rest ih =>
    intro s i h j hj
    rw [List.length_cons] at hj
    by_cases hc : l.conf > half
    · cases hl : List.lookup l.label alphabet with
      | none => rw [readfileAux_cons_key hc hl] at h; exact Except.noConfusion h
      | some c =>
        by_cases hi : i < size
        · rw [readfileAux_cons_store hc hl hi] at h
          rw [ih _ _ h j (by omega), List.getElem?_set_ne (by omega)]
        · rw [readfileAux_cons_idx hc hl hi] at h; exact Except.noConfusion h
    · rw [readfileAux_cons_skip hc] at h
      exact ih _ _ h j (by omega)

/-- What a successful encoder pass stores at the position of line `k`: the
alphabet symbol of its label when the confidence is strictly above the
threshold, the previous buffer content otherwise. -/
theorem readfileAux_ok_getElem_at {size : Nat} {t : List Char} :
    ∀ (ls : List Line) (s : List Char) (i : Nat),
      readfileAux size s i ls = .ok t → s.length = size →
      ∀ k, k < ls.length → i + k < size →
        t[i + k]? = if (ls.getD k dfltLine).conf > half then
          List.lookup (ls.getD k dfltLine).label alphabet else s[i + k]? := by
  intro ls
  induction ls with
  | nil => intro s i h hs k hk; simp at hk
  | cons l rest ih =>
    intro s i h hs k hk hik
    by_cases hc : l.conf > half
    · cases hl : List.lookup l.label alphabet with
      | none => rw [readfileAux_cons_key hc hl] at h; exact Except.noConfusion h
      | some c =>
        have hi : i < size := by omega
        rw [readfileAux_cons_store hc hl hi] at h
        cases k with
        | zero =>
          rw [Nat.add_zero, readfileAux_ok_getElem_lt rest _ _ h i (by omega)]
          rw [List.getElem?_set_self (by omega)]
          simp only [List.getD_cons_zero]
          rw [if_pos hc, hl]
        | succ k2 =>
          have hrec := ih (s.set i c) (i + 1) h (by rw [List.length_set, hs]) k2
            (by simpa using hk) (by omega)
          rw [List.getElem?_set_ne (by omega : i ≠ i + 1 + k2)] at hrec
          rw [show i + (k2 + 1) = i + 1 + k2 by omega]
          simpa [List.getD_cons_succ] using hrec
    · rw [readfileAux_cons_skip hc] at h
      cases k with
      | zero =>
        rw [Nat.add_zero, readfileAux_ok_getElem_lt rest _ _ h i (by omega)]
        simp only [List.getD_cons_zero]
        rw [if_neg hc]
      | succ k2 =>
        have hrec := ih s (i + 1) h hs k2 (by simpa using hk) (by omega)
        rw [show i + (k2 + 1) = i + 1 + k2 by omega]
        simpa [List.getD_cons_succ] using hrec

/-- With at least as much capacity as input lines, the write index never goes
out of bounds: no `IndexError`. -/
theorem readfileAux_ne_indexError {size : Nat} :
    ∀ (ls : List Line) (s : List Char) (i : Nat), i + ls.length ≤ size →
      readfileAux size s i ls ≠ .error Err.indexError := by
  intro ls
  induction ls with
  | nil => intro s i hle h; rw [readfileAux] at h; exact Except.noConfusion h
  | cons l rest ih =>
    intro s i hle h
    rw [List.length_cons] at hle
    by_cases hc : l.conf > half
    · cases hl : List.lookup l.label alphabet with
      | none =>
        rw [readfileAux_cons_key hc hl] at h
        simp at h
      | some c =>
        by_cases hi : i < size
        · rw [readfileAux_cons_store hc hl hi] at h
          exact ih _ _ (by omega) h
        · exact hi (by omega)
    · rw [readfileAux_cons_skip hc] at h
      exact ih _ _ (by omega) h

/-- A line with confidence above the threshold and a label outside the alphabet
makes the whole pass fail with a `KeyError` carrying some unknown label. -/
theorem readfileAux_keyError {size : Nat} :
    ∀ (ls : List Line) (s : List Char) (i : Nat) (k : Nat), k < ls.length →
      (ls.getD k dfltLine).conf > half →
      List.lookup (ls.getD k dfltLine).label alphabet = none →
      i + ls.length ≤ size →
      ∃ lbl, readfileAux size s i ls = .error (.keyError lbl) ∧
        List.lookup lbl alphabet = none := by
  intro ls
  induction ls with
  | nil => intro s i k hk; simp at hk
  | cons l rest ih =>
    intro s i k hk hconf hlook hle
    rw [List.length_cons] at hle
    by_cases hc : l.conf > half
    · cases hl : List.lookup l.label alphabet with
      | none => exact ⟨l.label, readfileAux_cons_key hc hl, hl⟩
      | some c =>
        cases k with
        | zero =>
          rw [List.getD_cons_zero] at hlook
          rw [hl] at hlook
          exact Option.noConfusion hlook
        | succ k2 =>
          rw [readfileAux_cons_store hc hl (by omega)]
          exact ih (s.set i c) (i + 1) k2 (by simpa using hk)
            (by simpa [List.getD_cons_succ] using hconf)
            (by simpa [List.getD_cons_succ] using hlook) (by omega)
    · cases k with
      | zero =>
        rw [List.getD_cons_zero] at hconf
        exact absurd hconf hc
      | succ k2 =>
        rw [readfileAux_cons_skip hc]
        exact ih s (i + 1) k2 (by simpa using hk)
          (by simpa [List.getD_cons_succ] using hconf)
          (by simpa [List.getD_cons_succ] using hlook) (by omega)

/-- C1: for every input line `i` with confidence `c`, a successful encoding run
has position `i` equal to the Alphabet symbol of that line's state-label iff
`c > 0.5` strictly; for `c ≤ 0.5` (including exactly 0.5) position `i` still
holds the placeholder '.', which is distinct from every alphabet symbol. -/
theorem c1_threshold_strict (lines : List Line) (size : Nat) (t : List Char) (i : Nat)
    (hok : readfile lines size = .ok t) (hi : i < lines.length) (hsz : i < size) :
    ((lines.getD i dfltLine).conf > half →
      t[i]? = List.lookup (lines.getD i dfltLine).label alphabet ∧ t[i]? ≠ some '.')
    ∧ ((lines.getD i dfltLine).conf ≤ half → t[i]? = some '.') := by
  rw [readfile] at hok
  have hat := readfileAux_ok_getElem_at lines _ 0 hok (by simp) i hi (by omega)
  rw [Nat.zero_add] at hat
  constructor
  · intro hconf
    rw [if_pos hconf] at hat
    refine ⟨hat, ?_⟩
    rw [hat]
    intro hbad
    exact alphabet_val_ne_dot hbad rfl
  · intro hconf
    rw [if_neg (not_lt.mpr hconf)] at hat
    rw [hat, List.getElem?_replicate_of_lt hsz]

/-- Witness for C1 at the concrete file `lines2`: line 0 (confidence 0.9) is
encoded as its alphabet symbol, line 1 (confidence exactly 0.5) keeps '.'. -/
theorem c1_threshold_strict_w :
    (((lines2.getD 0 dfltLine).conf > half →
      t2[0]? = List.lookup (lines2.getD 0 dfltLine).label alphabet ∧ t2[0]? ≠ some '.')
    ∧ ((lines2.getD 0 dfltLine).conf ≤ half → t2[0]? = some '.'))
    ∧ (((lines2.getD 1 dfltLine).conf > half →
      t2[1]? = List.lookup (lines2.getD 1 dfltLine).label alphabet ∧ t2[1]? ≠ some '.')
    ∧ ((lines2.getD 1 dfltLine).conf ≤ half → t2[1]? = some '.')) :=
  ⟨c1_threshold_strict lines2 SIZE t2 0 rfl (by decide) (by decide),
   c1_threshold_strict lines2 SIZE t2 1 rfl (by decide) (by decide)⟩

/-- C4 counterexample: a line whose state-label "ZZZ" is not in the Alphabet
but whose confidence is 0.3 (≤ 0.5) does NOT make encoding fail — the file is
accepted and the label silently skipped — refuting "regardless of the line's
confidence score". -/
theorem c4_cex :
    List.lookup "ZZZ" alphabet = none
    ∧ readfile [⟨"chr1", 0, 200, "ZZZ", conf3⟩] SIZE = .ok (List.replicate SIZE '.') :=
  ⟨by decide, rfl⟩

/-- C4 amended: encoding fails with a `KeyError` (a `LookupError`) whenever
some line has a state-label outside the Alphabet AND confidence strictly above
0.5 (given capacity for the whole file); unknown labels at confidence ≤ 0.5
are silently skipped instead. -/
theorem c4_unknown_label (lines : List Line) (k : Nat) (hk : k < lines.length)
    (hconf : (lines.getD k dfltLine).conf > half)
    (hlook : List.lookup (lines.getD k dfltLine).label alphabet = none)
    (hsz : lines.length ≤ SIZE) :
    ∃ lbl, readfile lines SIZE = .error (.keyError lbl) ∧
      List.lookup lbl alphabet = none := by
  rw [readfile]
  exact readfileAux_keyError lines _ 0 k hk hconf hlook (by omega)

/-- Witness for the amended C4: the same unknown label "ZZZ" at confidence 0.9
does abort the run with a `KeyError`. -/
theorem c4_unknown_label_w :
    ∃ lbl, readfile [⟨"chr1", 0, 200, "ZZZ", conf9⟩] SIZE = .error (.keyError lbl) ∧
      List.lookup lbl alphabet = none :=
  c4_unknown_label [⟨"chr1", 0, 200, "ZZZ", conf9⟩] 0 (by decide) (by decide)
    (by decide) (by decide)

/-- C9: for a file with at most 13,627,678 lines the encoder never raises the
out-of-bounds `IndexError`, and on success the returned sequence has length
exactly `SIZE` with every position at index ≥ the number of input lines still
holding the placeholder '.'. -/
theorem c9_capacity (lines : List Line) (h : lines.length ≤ SIZE) :
    readfile lines SIZE ≠ .error Err.indexError
    ∧ ∀ t, readfile lines SIZE = .ok t →
        t.length = SIZE ∧ ∀ j, lines.length ≤ j →
          t[j]? = if j < SIZE then some '.' else none := by
  constructor
  · rw [readfile]
    exact readfileAux_ne_indexError lines _ 0 (by omega)
  · intro t hok
    rw [readfile] at hok
    constructor
    · rw [readfileAux_ok_length lines _ 0 hok]
      simp
    · intro j hj
      rw [readfileAux_ok_getElem_ge lines _ 0 hok j (by omega)]
      exact List.getElem?_replicate

/-- Witness for C9 at the concrete two-line file `lines2`: no `IndexError`,
length exactly `SIZE`, and position 2 (beyond the 2 input lines) still '.'. -/
theorem c9_capacity_w :
    readfile lines2 SIZE ≠ .error Err.indexError
    ∧ t2.length = SIZE ∧ t2[2]? = some '.' := by
  have hmain := c9_capacity lines2 (by decide)
  refine ⟨hmain.1, (hmain.2 t2 rfl).1, ?_⟩
  rw [(hmain.2 t2 rfl).2 2 (by decide), if_pos (by decide)]

/-- A position whose character lies in `[KLNOPQR]` is inside the string. -/
theorem lt_of_isFlank {s : List Char} {p : Nat} (h : isFlank (charAt s p) = true) :
    p < s.length := by
  by_contra hge
  rw [charAt, List.getD_eq_getElem?_getD, List.getElem?_eq_none (by omega)] at h
  exact absurd h (by decide)

/-- A position whose character lies in `[MNOPQR]` is inside the string. -/
theorem lt_of_isOuter {s : List Char} {p : Nat} (h : isOuter (charAt s p) = true) :
    p < s.length := by
  by_contra hge
  rw [charAt, List.getD_eq_getElem?_getD, List.getElem?_eq_none (by omega)] at h
  exact absurd h (by decide)

/-- Inversion of a successful anchored BIVALENT match: it starts where it was
anchored, captures from the next offset (a flank character), and ends inside
the string. -/
theorem bivMatchAt_inv {s : List Char} {p : Nat} {m : RMatch}
    (h : bivMatchAt s p = some m) :
    m.mstart = p ∧ m.cstart = p + 1 ∧ isFlank (charAt s (p + 1)) = true ∧
      m.mend ≤ s.length := by
  simp only [bivMatchAt] at h
  split at h
  next hcond =>
    cases h
    simp only [Bool.and_eq_true, decide_eq_true_eq] at hcond
    obtain ⟨⟨⟨⟨h0, h1⟩, hk⟩, h2⟩, h3⟩ := hcond
    have h4 := lt_of_isFlank h3
    exact ⟨rfl, rfl, h1, by dsimp only; omega⟩
  next => exact Option.noConfusion h

/-- Inversion of the REPRPC backtracking helper: any success is anchored at
`p`, captures from `p + 2`, and ends inside the string. -/
theorem reprTry_inv {s : List Char} {p : Nat} :
    ∀ (j : Nat) (m : RMatch), reprTry s p j = some m →
      m.mstart = p ∧ m.cstart = p + 2 ∧ m.mend ≤ s.length := by
  intro j
  induction j with
  | zero => intro m h; exact Option.noConfusion h
  | succ j2 ih =>
    intro m h
    rw [reprTry] at h
    split at h
    next hcond =>
      cases h
      simp only [Bool.and_eq_true] at hcond
      obtain ⟨⟨h3, h4⟩, h5⟩ := hcond
      have h6 := lt_of_isOuter h5
      exact ⟨rfl, rfl, by dsimp only; omega⟩
    next => exact ih m h

/-- Inversion of a successful anchored REPRPC match. -/
theorem reprMatchAt_inv {s : List Char} {p : Nat} {m : RMatch}
    (h : reprMatchAt s p = some m) :
    m.mstart = p ∧ m.cstart = p + 2 ∧ isFlank (charAt s (p + 2)) = true ∧
      m.mend ≤ s.length := by
  rw [reprMatchAt] at h
  split at h
  next hcond =>
    simp only [Bool.and_eq_true] at hcond
    obtain ⟨⟨h0, h1⟩, h2⟩ := hcond
    have h3 := reprTry_inv _ m h
    exact ⟨h3.1, h3.2.1, h2, h3.2.2⟩
  next => exact Option.noConfusion h

/-- Membership in the overlapped scan: exactly the anchored matches at offsets
in `[p, p + fuel)`. -/
theorem scanFrom_mem {mA : List Char → Nat → Option RMatch} {s : List Char} {m : RMatch} :
    ∀ (fuel p : Nat), m ∈ scanFrom mA s fuel p ↔
      ∃ q, p ≤ q ∧ q < p + fuel ∧ mA s q = some m := by
  intro fuel
  induction fuel with
  | zero =>
    intro p
    rw [scanFrom]
    simp only [List.not_mem_nil, false_iff]
    rintro ⟨q, h1, h2, h3⟩
    omega
  | succ f2 ih =>
    intro p
    cases hq : mA s p with
    | some m2 =>
      simp only [scanFrom, hq, List.mem_cons, ih]
      constructor
      · rintro (rfl | ⟨q, h1, h2, h3⟩)
        · exact ⟨p, le_refl p, by omega, hq⟩
        · exact ⟨q, by omega, by omega, h3⟩
      · rintro ⟨q, h1, h2, h3⟩
        by_cases hqp : q = p
        · subst hqp
          rw [hq] at h3
          cases h3
          exact Or.inl rfl
        · exact Or.inr ⟨q, by omega, by omega, h3⟩
    | none =>
      simp only [scanFrom, hq, ih]
      constructor
      · rintro ⟨q, h1, h2, h3⟩
        exact ⟨q, by omega, by omega, h3⟩
      · rintro ⟨q, h1, h2, h3⟩
        refine ⟨q, ?_, by omega, h3⟩
        by_cases hqp : q = p
        · subst hqp; rw [hq] at h3; exact Option.noConfusion h3
        · omega

/-- Every match produced from offset `p` onward starts at or after `p`. -/
theorem scanFrom_start_ge {mA : List Char → Nat → Option RMatch} {s : List Char}
    (hstart : ∀ q m, mA s q = some m → m.mstart = q) :
    ∀ (fuel p : Nat) (m : RMatch), m ∈ scanFrom mA s fuel p → p ≤ m.mstart := by
  intro fuel p m hm
  obtain ⟨q, h1, h2, h3⟩ := (scanFrom_mem fuel p).mp hm
  rw [hstart q m h3]
  exact h1

/-- The scan produces matches in strictly increasing start order. -/
theorem scanFrom_pairwise {mA : List Char → Nat → Option RMatch} {s : List Char}
    (hstart : ∀ q m, mA s q = some m → m.mstart = q) :
    ∀ (fuel p : Nat),
      (scanFrom mA s fuel p).Pairwise (fun x y => x.mstart < y.mstart) := by
  intro fuel
  induction fuel with
  | zero => intro p; rw [scanFrom]; exact List.Pairwise.nil
  | succ f2 ih =>
    intro p
    cases hq : mA s p with
    | some m2 =>
      simp only [scanFrom, hq]
      refine List.Pairwise.cons ?_ (ih (p + 1))
      intro y hy
      have hge := scanFrom_start_ge hstart f2 (p + 1) y hy
      rw [hstart p m2 hq]
      omega
    | none =>
      simp only [scanFrom, hq]
      exact ih (p + 1)

/-- With no anchored match anywhere at or after `p`, the scan yields nothing. -/
theorem scanFrom_eq_nil {mA : List Char → Nat → Option RMatch} {s : List Char} :
    ∀ (fuel p : Nat), (∀ q, p ≤ q → mA s q = none) → scanFrom mA s fuel p = [] := by
  intro fuel
  induction fuel with
  | zero => intro p h; rw [scanFrom]
  | succ f2 ih =>
    intro p h
    simp only [scanFrom, h p (le_refl p)]
    exact ih (p + 1) (fun q hq => h q (by omega))

/-- The scan splits at any intermediate fuel point. -/
theorem scanFrom_append {mA : List Char → Nat → Option RMatch} {s : List Char} :
    ∀ (f1 f2 p : Nat),
      scanFrom mA s (f1 + f2) p = scanFrom mA s f1 p ++ scanFrom mA s f2 (p + f1) := by
  intro f1
  induction f1 with
  | zero =>
    intro f2 p
    rw [Nat.zero_add, scanFrom, List.nil_append, Nat.add_zero]
  | succ g ih =>
    intro f2 p
    rw [show g + 1 + f2 = g + f2 + 1 by omega]
    cases hq : mA s p with
    | some m2 =>
      simp only [scanFrom, hq]
      rw [List.cons_append, ih f2 (p + 1), show p + 1 + g = p + (g + 1) by omega]
    | none =>
      simp only [scanFrom, hq]
      rw [ih f2 (p + 1), show p + 1 + g = p + (g + 1) by omega]

/-- Matches of `findAll` come in non-decreasing start order. -/
theorem pairwise_mstart_of {mA : List Char → Nat → Option RMatch} {s : List Char}
    (hstart : ∀ q m, mA s q = some m → m.mstart = q) :
    ((findAll mA s).map RMatch.mstart).Pairwise (· ≤ ·) := by
  rw [findAll]
  exact List.pairwise_map.mpr
    ((scanFrom_pairwise hstart s.length 0).imp fun h => le_of_lt h)

/-- Capture starts of `findAll` come in non-decreasing order whenever the
pattern's capture start sits at a fixed offset from the match start. -/
theorem pairwise_cstart_of {mA : List Char → Nat → Option RMatch} {s : List Char}
    (off : Nat) (hstart : ∀ q m, mA s q = some m → m.mstart = q)
    (hoff : ∀ q m, mA s q = some m → m.cstart = q + off) :
    ((findAll mA s).map RMatch.cstart).Pairwise (· ≤ ·) := by
  rw [findAll]
  refine List.pairwise_map.mpr
    (List.Pairwise.imp_of_mem ?_ (scanFrom_pairwise hstart s.length 0))
  intro a b ha hb hlt
  obtain ⟨qa, _, _, h3a⟩ := (scanFrom_mem s.length 0).mp ha
  obtain ⟨qb, _, _, h3b⟩ := (scanFrom_mem s.length 0).mp hb
  have ca := hoff qa a h3a
  have cb := hoff qb b h3b
  have ma := hstart qa a h3a
  have mb := hstart qb b h3b
  omega

/-- C5: for either built-in pattern, the matches — and with them the capture
ranges handed to the reconstructor — are produced in non-decreasing order of
their start offsets. -/
theorem c5_order (s : List Char) :
    ((findAll bivMatchAt s).map RMatch.mstart).Pairwise (· ≤ ·)
    ∧ ((findAll bivMatchAt s).map RMatch.cstart).Pairwise (· ≤ ·)
    ∧ ((findAll reprMatchAt s).map RMatch.mstart).Pairwise (· ≤ ·)
    ∧ ((findAll reprMatchAt s).map RMatch.cstart).Pairwise (· ≤ ·) := by
  have hb : ∀ q m, bivMatchAt s q = some m → m.mstart = q :=
    fun q m h => (bivMatchAt_inv h).1
  have hr : ∀ q m, reprMatchAt s q = some m → m.mstart = q :=
    fun q m h => (reprMatchAt_inv h).1
  exact ⟨pairwise_mstart_of hb,
    pairwise_cstart_of 1 hb (fun q m h => (bivMatchAt_inv h).2.1),
    pairwise_mstart_of hr,
    pairwise_cstart_of 2 hr (fun q m h => (reprMatchAt_inv h).2.1)⟩

/-- C3: the search is overlap-aware — an anchored match at offset `q` is
reported even when `q` lies strictly inside the span of an earlier match (the
scan resumes one position past a match's start, never past its end); and
concretely, searching BIVALENT over `KKGGGKK` yields a match whose capture
starts at offset 1 with captured core `KGGGK`. -/
theorem c3_overlap :
    (∀ (s : List Char) (p q : Nat) (m mq : RMatch), bivMatchAt s p = some m →
      bivMatchAt s q = some mq → p < q → q < m.mend → mq ∈ findAll bivMatchAt s)
    ∧ (∃ m, m ∈ findAll bivMatchAt "KKGGGKK".toList ∧ m.cstart = 1 ∧
        ("KKGGGKK".toList.drop m.cstart).take (m.cend - m.cstart) = "KGGGK".toList) := by
  constructor
  · intro s p q m mq hp hq hpq hqe
    rw [findAll]
    have hend := (bivMatchAt_inv hp).2.2.2
    exact (scanFrom_mem s.length 0).mpr ⟨q, by omega, by omega, hq⟩
  · exact ⟨⟨0, 7, 1, 6⟩, by decide, by decide, by decide⟩

/-- Witness for C3: in `KKGGGKKGGGKK` the match anchored at offset 5 starts
strictly inside the span `[0, 7)` of the match anchored at offset 0, and is
nevertheless reported by the overlapped search. -/
theorem c3_overlap_w :
    (⟨5, 12, 6, 11⟩ : RMatch) ∈ findAll bivMatchAt "KKGGGKKGGGKK".toList :=
  c3_overlap.1 "KKGGGKKGGGKK".toList 0 5 ⟨0, 7, 1, 6⟩ ⟨5, 12, 6, 11⟩
    (by decide) (by decide) (by decide) (by decide)

/-- The cursor loop entered with `n ≤ a` consumes lines up to and including
line `a`: afterwards `a + 1` lines are consumed and the current line is line
`a` (`none` when the file is too short). -/
theorem seekAux_spec {lines : List Line} {a : Nat} :
    ∀ (fuel n : Nat) (cur : Option Line), a + 1 - n = fuel → n ≤ a →
      seekAux lines a fuel n cur = (a + 1, lines[a]?) := by
  intro fuel
  induction fuel with
  | zero => intro n cur hf hn; omega
  | succ f2 ih =>
    intro n cur hf hn
    rw [seekAux, if_pos hn]
    by_cases hna : n = a
    · subst hna
      have hz : f2 = 0 := by omega
      subst hz
      rw [seekAux]
    · exact ih (n + 1) _ (by omega) (by omega)

/-- `seek` with a reachable target lands exactly on line `a`. -/
theorem seek_eq {lines : List Line} {a n : Nat} {cur : Option Line} (hn : n ≤ a) :
    seek lines a n cur = (a + 1, lines[a]?) :=
  seekAux_spec (a + 1 - n) n cur rfl hn

/-- Pointwise relation between a list and its image under a map. -/
theorem forall₂_self_map {α γ : Type _} {R : α → γ → Prop} {g : α → γ} :
    ∀ (cs : List α), (∀ p ∈ cs, R p (g p)) → List.Forall₂ R cs (cs.map g) := by
  intro cs
  induction cs with
  | nil => intro h; exact List.Forall₂.nil
  | cons hd tl ih =>
    intro h
    exact List.Forall₂.cons (h hd (List.mem_cons_self _ _))
      (ih fun p hp => h p (List.mem_cons_of_mem _ hp))

/-- Pointwise relation between two maps over the same list. -/
theorem forall₂_map_map {α β γ : Type _} {R : β → γ → Prop} {f : α → β} {g : α → γ} :
    ∀ (cs : List α), (∀ p ∈ cs, R (f p) (g p)) → List.Forall₂ R (cs.map f) (cs.map g) := by
  intro cs
  induction cs with
  | nil => intro h; exact List.Forall₂.nil
  | cons hd tl ih =>
    intro h
    exact List.Forall₂.cons (h hd (List.mem_cons_self _ _))
      (ih fun p hp => h p (List.mem_cons_of_mem _ hp))

/-- On strictly increasing capture starts that are reachable from the cursor
and inside the file, the single-cursor reconstructor succeeds and emits the
closed-form interval `reconIv` for every capture. -/
theorem recon_eq {lines : List Line} {binsize slop : Int} :
    ∀ (cs : List (Nat × Nat)) (n : Nat) (cur : Option Line),
      (cs.map Prod.fst).Pairwise (· < ·) → (∀ p ∈ cs, n ≤ p.1) →
      (∀ p ∈ cs, p.1 < lines.length) →
      recon lines binsize slop cs n cur = some (cs.map (reconIv lines binsize slop)) := by
  intro cs
  induction cs with
  | nil => intro n cur h1 h2 h3; rw [recon]; rfl
  | cons hd tl ih =>
    intro n cur h1 h2 h3
    cases hd with
    | mk a b =>
      have hna : n ≤ a := h2 (a, b) (List.mem_cons_self _ _)
      have hlt : a < lines.length := h3 (a, b) (List.mem_cons_self _ _)
      rw [List.map_cons, List.pairwise_cons] at h1
      obtain ⟨hhead, htail⟩ := h1
      have hn2 : ∀ p ∈ tl, a + 1 ≤ p.1 := by
        intro p hp
        have := hhead p.1 (List.mem_map_of_mem Prod.fst hp)
        omega
      have hlt2 : ∀ p ∈ tl, p.1 < lines.length :=
        fun p hp => h3 p (List.mem_cons_of_mem _ hp)
      rw [recon, seek_eq hna, List.getElem?_eq_getElem hlt]
      dsimp only
      rw [ih (a + 1) (some lines[a]) htail hn2 hlt2]
      dsimp only
      rw [List.map_cons]
      simp [reconIv, List.getD_eq_getElem?_getD, List.getElem?_eq_getElem hlt]

/-- C2: with no slop configured, every capture range `[a, b)` of length
`L = b - a` reconstructs to the chromosome and start coordinate of input line
`a` taken verbatim, with end coordinate `line[a].end + binsize * (L - 1)`. -/
theorem c2_reconstruct (lines : List Line) (binsize : Int) (cs : List (Nat × Nat))
    (n : Nat) (cur : Option Line)
    (hsort : (cs.map Prod.fst).Pairwise (· < ·))
    (hcur : ∀ p ∈ cs, n ≤ p.1)
    (hin : ∀ p ∈ cs, p.1 < lines.length) :
    ∃ ivs, recon lines binsize 0 cs n cur = some ivs ∧
      List.Forall₂ (fun (p : Nat × Nat) (iv : GenomeInterval) =>
        iv.chrom = (lines.getD p.1 dfltLine).chrom ∧
        iv.start = (lines.getD p.1 dfltLine).start ∧
        iv.stop = (lines.getD p.1 dfltLine).stop +
          binsize * (((p.2 : Int) - (p.1 : Int)) - 1)) cs ivs := by
  refine ⟨cs.map (reconIv lines binsize 0), recon_eq cs n cur hsort hcur hin, ?_⟩
  refine forall₂_self_map cs ?_
  intro p hp
  simp [reconIv]

/-- Witness for C2 at the concrete file `lines2` with captures `[0,2)` and
`[1,3)`. -/
theorem c2_reconstruct_w :
    ∃ ivs, recon lines2 200 0 [(0, 2), (1, 3)] 0 none = some ivs ∧
      List.Forall₂ (fun (p : Nat × Nat) (iv : GenomeInterval) =>
        iv.chrom = (lines2.getD p.1 dfltLine).chrom ∧
        iv.start = (lines2.getD p.1 dfltLine).start ∧
        iv.stop = (lines2.getD p.1 dfltLine).stop +
          200 * (((p.2 : Int) - (p.1 : Int)) - 1)) [(0, 2), (1, 3)] ivs :=
  c2_reconstruct lines2 200 [(0, 2), (1, 3)] 0 none (by decide) (by decide) (by decide)

/-- C6: a slop value `s > 0` moves every reconstructed start down by `s`
(floored at 0) and every end up by `s`, independently of the capture length,
while `s = 0` leaves the reconstruction untouched. -/
theorem c6_slop (lines : List Line) (binsize s : Int) (cs : List (Nat × Nat))
    (n : Nat) (cur : Option Line)
    (hsort : (cs.map Prod.fst).Pairwise (· < ·))
    (hcur : ∀ p ∈ cs, n ≤ p.1)
    (hin : ∀ p ∈ cs, p.1 < lines.length) :
    (0 < s → ∃ ivs0 ivss, recon lines binsize 0 cs n cur = some ivs0 ∧
      recon lines binsize s cs n cur = some ivss ∧
      List.Forall₂ (fun (iv0 ivS : GenomeInterval) => ivS.chrom = iv0.chrom ∧
        ivS.start = max 0 (iv0.start - s) ∧ ivS.stop = iv0.stop + s) ivs0 ivss)
    ∧ (s = 0 → recon lines binsize s cs n cur = recon lines binsize 0 cs n cur) := by
  constructor
  · intro hs
    refine ⟨cs.map (reconIv lines binsize 0), cs.map (reconIv lines binsize s),
      recon_eq cs n cur hsort hcur hin, recon_eq cs n cur hsort hcur hin, ?_⟩
    refine forall₂_map_map cs ?_
    intro p hp
    have hs0 : ¬ s = 0 := by omega
    simp [reconIv, hs0]
  · intro hs
    subst hs
    rfl

/-- Witness for C6 at `lines2` with slop 7: the first start is floored at 0. -/
theorem c6_slop_w :
    ∃ ivs0 ivss, recon lines2 200 0 [(0, 2), (1, 3)] 0 none = some ivs0 ∧
      recon lines2 200 7 [(0, 2), (1, 3)] 0 none = some ivss ∧
      List.Forall₂ (fun (iv0 ivS : GenomeInterval) => ivS.chrom = iv0.chrom ∧
        ivS.start = max 0 (iv0.start - 7) ∧ ivS.stop = iv0.stop + 7) ivs0 ivss :=
  (c6_slop lines2 200 7 [(0, 2), (1, 3)] 0 none (by decide) (by decide) (by decide)).1
    (by decide)

/-- Strings append their character data. -/
theorem string_data_append (s t : String) : (s ++ t).data = s.data ++ t.data := by
  cases s; cases t; rfl

/-- C7: a bed3 record has exactly 3 tab-separated columns; a non-bed3 record
has exactly 6 columns when a tag is configured (truthy) and exactly 5 without
one; every rendered line ends with a newline; and the output stream is nothing
but the rendered records — in particular it is empty when there is no match,
so no header row is ever written. -/
theorem c7_columns (iv : GenomeInterval) (tissue timepoint : String)
    (tag : Option String) :
    (outputRow iv tissue timepoint tag true).length = 3
    ∧ (tagTruthy tag = true → (outputRow iv tissue timepoint tag false).length = 6)
    ∧ (tagTruthy tag = false → (outputRow iv tissue timepoint tag false).length = 5)
    ∧ (∀ b : Bool, (renderRow (outputRow iv tissue timepoint tag b)).data.getLast?
        = some '\n')
    ∧ outputAll [] tissue timepoint tag true = ""
    ∧ outputAll [] tissue timepoint tag false = "" := by
  refine ⟨rfl, ?_, ?_, ?_, rfl, rfl⟩
  · intro h
    simp [outputRow, h]
  · intro h
    simp [outputRow, h]
  · intro b
    rw [renderRow, string_data_append]
    exact List.getLast?_concat _

/-- Witness for C7: concrete 6-column and 5-column non-bed3 records. -/
theorem c7_columns_w :
    (outputRow ⟨"chr1", 0, 1⟩ "lung" "15.5" (some "bivalent") false).length = 6
    ∧ (outputRow ⟨"chr1", 0, 1⟩ "lung" "15.5" none false).length = 5 :=
  ⟨(c7_columns ⟨"chr1", 0, 1⟩ "lung" "15.5" (some "bivalent")).2.1 (by decide),
   (c7_columns ⟨"chr1", 0, 1⟩ "lung" "15.5" none).2.2.1 (by decide)⟩

/-- Encoding the seven-line `KLGGGLK` file yields the concrete buffer `enc7`. -/
theorem readfile_lines7 : readfile lines7 SIZE = .ok enc7 := rfl

/-- The concrete buffer has the full fixed capacity. -/
theorem enc7_length : enc7.length = SIZE := by
  simp [enc7]

/-- Beyond offset 6 the concrete buffer is all placeholder dots. -/
theorem enc7_charAt_ge {q : Nat} (hq : 7 ≤ q) : charAt enc7 q = '.' := by
  simp only [charAt, enc7, List.getD_eq_getElem?_getD]
  rw [List.getElem?_set_ne (by omega), List.getElem?_set_ne (by omega),
    List.getElem?_set_ne (by omega), List.getElem?_set_ne (by omega),
    List.getElem?_set_ne (by omega), List.getElem?_set_ne (by omega),
    List.getElem?_set_ne (by omega), List.getElem?_replicate]
  split
  · rfl
  · rfl

/-- No BIVALENT match is anchored at or beyond offset 7 of `enc7`. -/
theorem enc7_no_match {q : Nat} (hq : 7 ≤ q) : bivMatchAt enc7 q = none := by
  have h0 : isFlank (charAt enc7 q) = false := by
    rw [enc7_charAt_ge hq]
    decide
  simp [bivMatchAt, h0]

/-- The full overlapped BIVALENT scan of `enc7`: exactly one match, spanning
`[0, 7)` and capturing `[1, 6)`. -/
theorem findAll_enc7 : findAll bivMatchAt enc7 = [⟨0, 7, 1, 6⟩] := by
  rw [findAll, enc7_length]
  rw [show SIZE = 7 + 13627671 from rfl]
  rw [scanFrom_append]
  rw [scanFrom_eq_nil 13627671 (0 + 7) (fun q hq => enc7_no_match (by omega))]
  rw [List.append_nil]
  decide

/-- The zero-slop BIVALENT pipeline on the seven-line file: the single interval
`[200, 1200)` on chr1 — start from line 1 verbatim, end `line1.end + 200 * 4`. -/
theorem run7_eq : runPattern bivMatchAt lines7 SIZE 0 200 = some [⟨"chr1", 200, 1200⟩] := by
  simp only [runPattern, readfile_lines7, findAll_enc7]
  decide

/-- C8 counterexample: on the seven-line file encoding `KLGGGLK` at confidence
0.9 with binsize 200 and slop 0, the BIVALENT pipeline reports the single
interval `[200, 1200)` — but the claim's end formula
`original_end_of_line4 + 200 * 3` gives 1600, not the reported 1200. -/
theorem c8_cex :
    runPattern bivMatchAt lines7 SIZE 0 200 = some [⟨"chr1", 200, 1200⟩]
    ∧ ¬ ((1200 : Int) = (lines7.getD 4 dfltLine).stop + 200 * 3) :=
  ⟨run7_eq, by decide⟩

/-- C8 amended: the BIVALENT search on that file reports exactly one genomic
interval, covering bins 1–5 inclusive (start = line 1's start), with end
coordinate `original_end_of_line1 + 200 * (5 - 1)` — equivalently
`original_end_of_line4 + 200`, i.e. line 5's end for consecutive bins. -/
theorem c8_end_to_end :
    runPattern bivMatchAt lines7 SIZE 0 200 = some [⟨"chr1", 200, 1200⟩]
    ∧ (200 : Int) = (lines7.getD 1 dfltLine).start
    ∧ (1200 : Int) = (lines7.getD 1 dfltLine).stop + 200 * (5 - 1)
    ∧ (1200 : Int) = (lines7.getD 4 dfltLine).stop + 200 :=
  ⟨run7_eq, by decide, by decide, by decide⟩

/-- On a successful encoding, offsets at or beyond the number of input lines
hold the placeholder dot. -/
theorem readfile_ok_charAt_ge {lines : List Line} {size : Nat} {t : List Char}
    (hok : readfile lines size = .ok t) {j : Nat} (hj : lines.length ≤ j) :
    charAt t j = '.' := by
  rw [readfile] at hok
  rw [charAt, List.getD_eq_getElem?_getD]
  rw [readfileAux_ok_getElem_ge lines _ 0 hok j (by omega), List.getElem?_replicate]
  split
  · rfl
  · rfl

/-- Every capture start of either pattern over a successfully encoded file lies
inside the file: its character is a flank symbol, never the placeholder. -/
theorem capture_lt_of_ok {lines : List Line} {size : Nat} {t : List Char}
    (hok : readfile lines size = .ok t)
    {mA : List Char → Nat → Option RMatch}
    (hmA : mA = bivMatchAt ∨ mA = reprMatchAt) {m : RMatch}
    (hm : m ∈ findAll mA t) : m.cstart < lines.length := by
  rw [findAll] at hm
  obtain ⟨q, h1, h2, h3⟩ := (scanFrom_mem t.length 0).mp hm
  have hfl : isFlank (charAt t m.cstart) = true := by
    cases hmA with
    | inl hbiv =>
      subst hbiv
      obtain ⟨hms, hcs, hf, hme⟩ := bivMatchAt_inv h3
      rw [hcs]
      exact hf
    | inr hrep =>
      subst hrep
      obtain ⟨hms, hcs, hf, hme⟩ := reprMatchAt_inv h3
      rw [hcs]
      exact hf
  by_contra hge
  rw [readfile_ok_charAt_ge hok (by omega)] at hfl
  exact absurd hfl (by decide)

/-- Capture ranges extracted from `findAll` have strictly increasing starts
whenever the pattern's capture sits at a fixed offset from the match start. -/
theorem captures_pairwise {mA : List Char → Nat → Option RMatch} {s : List Char}
    (off : Nat) (hstart : ∀ q m, mA s q = some m → m.mstart = q)
    (hoff : ∀ q m, mA s q = some m → m.cstart = q + off) :
    (((findAll mA s).map fun m => (m.cstart, m.cend)).map Prod.fst).Pairwise (· < ·) := by
  rw [findAll, List.map_map]
  refine List.pairwise_map.mpr
    (List.Pairwise.imp_of_mem ?_ (scanFrom_pairwise hstart s.length 0))
  intro a b ha hb hlt
  obtain ⟨qa, _, _, h3a⟩ := (scanFrom_mem s.length 0).mp ha
  obtain ⟨qb, _, _, h3b⟩ := (scanFrom_mem s.length 0).mp hb
  have ca := hoff qa a h3a
  have cb := hoff qb b h3b
  have ma := hstart qa a h3a
  have mb := hstart qb b h3b
  show a.cstart < b.cstart
  omega

/-- With a successful encoding, the pipeline emits `reconIv` of every capture
range of every match, for either built-in pattern and any slop and binsize. -/
theorem runPattern_eq {lines : List Line} {size : Nat} {t : List Char}
    (hok : readfile lines size = .ok t) {mA : List Char → Nat → Option RMatch}
    (hmA : mA = bivMatchAt ∨ mA = reprMatchAt) (slop binsize : Int) :
    runPattern mA lines size slop binsize =
      some (((findAll mA t).map fun m => (m.cstart, m.cend)).map
        (reconIv lines binsize slop)) := by
  have hpair : (((findAll mA t).map fun m => (m.cstart, m.cend)).map
      Prod.fst).Pairwise (· < ·) := by
    cases hmA with
    | inl hbiv =>
      subst hbiv
      exact captures_pairwise 1 (fun q m h => (bivMatchAt_inv h).1)
        (fun q m h => (bivMatchAt_inv h).2.1)
    | inr hrep =>
      subst hrep
      exact captures_pairwise 2 (fun q m h => (reprMatchAt_inv h).1)
        (fun q m h => (reprMatchAt_inv h).2.1)
  have hcur : ∀ p ∈ (findAll mA t).map fun m => (m.cstart, m.cend), 0 ≤ p.1 :=
    fun p _ => Nat.zero_le p.1
  have hin : ∀ p ∈ (findAll mA t).map fun m => (m.cstart, m.cend),
      p.1 < lines.length := by
    intro p hp
    obtain ⟨m, hm, rfl⟩ := List.mem_map.mp hp
    exact capture_lt_of_ok hok hmA hm
  simp only [runPattern, hok]
  exact recon_eq _ 0 none hpair hcur hin

/-- C10: the CLI calls pass 200 as `regex`'s third positional argument, which
binds `slop` (binsize stays at its default 200); therefore every interval the
CLI reports is the corresponding zero-slop interval widened by 200 bases on
each side, with the start floored at 0. -/
theorem c10_cli_slop (lines : List Line)
    (mA : List Char → Nat → Option RMatch)
    (hmA : mA = bivMatchAt ∨ mA = reprMatchAt) :
    cliSlop = 200 ∧ cliBinsize = 200 ∧
    ∀ ivs0, runPattern mA lines SIZE 0 cliBinsize = some ivs0 →
      ∃ ivs, runPattern mA lines SIZE cliSlop cliBinsize = some ivs ∧
        List.Forall₂ (fun (iv0 iv : GenomeInterval) => iv.chrom = iv0.chrom ∧
          iv.start = max 0 (iv0.start - 200) ∧ iv.stop = iv0.stop + 200) ivs0 ivs := by
  refine ⟨rfl, rfl, ?_⟩
  intro ivs0 h0
  cases hok : readfile lines SIZE with
  | error e =>
    rw [runPattern, hok] at h0
    exact Option.noConfusion h0
  | ok t =>
    rw [runPattern_eq hok hmA 0 cliBinsize] at h0
    cases h0
    refine ⟨((findAll mA t).map fun m => (m.cstart, m.cend)).map
      (reconIv lines cliBinsize cliSlop), runPattern_eq hok hmA cliSlop cliBinsize, ?_⟩
    refine forall₂_map_map _ ?_
    intro p hp
    have h200 : ¬ ((200 : Int) = 0) := by decide
    simp [reconIv, cliSlop, h200]

/-- Witness for C10: on the seven-line file the CLI parameters (slop 200,
binsize 200) turn the zero-slop interval `[200, 1200)` into one widened by 200
on each side. -/
theorem c10_cli_slop_w :
    ∃ ivs, runPattern bivMatchAt lines7 SIZE cliSlop cliBinsize = some ivs ∧
      List.Forall₂ (fun (iv0 iv : GenomeInterval) => iv.chrom = iv0.chrom ∧
        iv.start = max 0 (iv0.start - 200) ∧ iv.stop = iv0.stop + 200)
        [⟨"chr1", 200, 1200⟩] ivs :=
  (c10_cli_slop lines7 bivMatchAt (Or.inl rfl)).2.2 [⟨"chr1", 200, 1200⟩] run7_eq
